/-
Verification of the aggregation and transition-graph layer of the
agentlens dashboard (src/utils/dataProcessing.js).

The JavaScript functions are shallowly embedded: a CSV row becomes a
`Record` with optional fields (absent/null-or-undefined modelled as
`none`), JS numbers become `ℚ` extended with the special values
`undefined`, `NaN` and `Infinity` (`JsVal`), arrays become lists, and
JS `Map`/object dictionaries become association lists in insertion
order.  lodash `_.meanBy` is modelled faithfully: values that are
`undefined` are skipped by the sum but the division is by the full
array length, and an empty (or all-absent) array yields `NaN`.
-/
import Mathlib

/-! ## JS number semantics (the fragment the code exercises) -/

/-- A JavaScript numeric value as produced by the statistics code:
an ordinary (rational) number, `undefined` (an absent field),
`NaN`, or positive `Infinity`. -/
inductive JsVal where
  | undefined
  | nan
  | inf
  | num (q : ℚ)
deriving DecidableEq, Repr

/-- JS `+` on the values above: any `undefined` or `NaN` operand gives
`NaN`; `Infinity` absorbs finite numbers. -/
def jsAdd : JsVal → JsVal → JsVal
  | .num a, .num b => .num (a + b)
  | .inf, .num _ => .inf
  | .num _, .inf => .inf
  | .inf, .inf => .inf
  | _, _ => .nan

/-- One step of lodash `baseSum`:
`result = result === undefined ? current : result + current`, with
`undefined` currents skipped. -/
def baseSumStep (acc v : JsVal) : JsVal :=
  match v with
  | .undefined => acc
  | v =>
    match acc with
    | .undefined => v
    | acc => jsAdd acc v

/-- lodash `baseSum`: fold left over the array, skipping entries whose
iteratee value is `undefined`; the accumulator starts as `undefined`. -/
def baseSum (l : List JsVal) : JsVal :=
  l.foldl baseSumStep .undefined

/-- lodash `_.meanBy` / `baseMean`: `baseSum(array) / array.length`, with
`NaN` for an empty array.  `undefined / n` is `NaN`. -/
def lodashMeanBy (l : List JsVal) : JsVal :=
  if l.length = 0 then .nan
  else
    match baseSum l with
    | .undefined => .nan
    | .nan => .nan
    | .inf => .inf
    | .num s => .num (s / (l.length : ℚ))

/-- JS division of two nonnegative counts `a / b`: `0/0 = NaN`,
`a/0 = Infinity` for `a > 0`, otherwise an exact rational. -/
def jsRatio (a b : Nat) : JsVal :=
  if b = 0 then (if a = 0 then .nan else .inf)
  else .num ((a : ℚ) / (b : ℚ))

/-- JS `x || 0` applied to a numeric value: `undefined` and `NaN`
(and `0` itself) become `0`; other values pass through. -/
def jsOrZero : JsVal → JsVal
  | .num q => .num q
  | .inf => .inf
  | _ => .num 0

/-- View an optional field value as a JS value (`none` ↦ `undefined`). -/
def optToJs : Option ℚ → JsVal
  | none => .undefined
  | some q => .num q

/-- JS `Math.round`: round half toward positive infinity. -/
def jsRound (q : ℚ) : Int := Int.floor (q + 1/2)

/-! ## JS array/object helpers -/

/-- Worker for `jsUniq`: keep elements not yet seen, in order. -/
def jsUniqAux [DecidableEq α] (seen : List α) : List α → List α
  | [] => []
  | x :: xs =>
    if x ∈ seen then jsUniqAux seen xs
    else x :: jsUniqAux (x :: seen) xs

/-- lodash `_.uniq` / `new Set(...)` spread: deduplicate keeping the
first occurrence of each element, preserving encounter order. -/
def jsUniq [DecidableEq α] (l : List α) : List α := jsUniqAux [] l

/-- Bump the count of `k` in an association list, appending a fresh
entry if `k` is new (JS object/`countBy` insertion order). -/
def bumpCount [DecidableEq κ] : List (κ × Nat) → κ → List (κ × Nat)
  | [], k => [(k, 1)]
  | (k', c) :: rest, k =>
    if k' = k then (k', c + 1) :: rest else (k', c) :: bumpCount rest k

/-- lodash `_.countBy`: occurrence counts keyed in first-encounter order. -/
def countByKey [DecidableEq κ] (keys : List κ) : List (κ × Nat) :=
  keys.foldl bumpCount []

/-! ## Record model -/

/-- One parsed CSV row.  Optional fields model absent (`undefined`/null)
cells; `has_error` is the row's error flag (absent coerces to `false`). -/
structure Record where
  tool_name : Option String := none
  subdir : Option String := none
  step : Option Nat := none
  duration : Option ℚ := none
  token_count : Option ℚ := none
  prompt_tokens : Option ℚ := none
  completion_tokens : Option ℚ := none
  total_tokens : Option ℚ := none
  cached_tokens_pct : Option ℚ := none
  has_error : Bool := false
deriving DecidableEq, Repr

/-- JS truthiness of a string field: present and nonempty. -/
def truthyStr : Option String → Bool
  | none => false
  | some s => !(s == "")

/-- JS `.filter(Boolean)` on an array of nullable strings. -/
def filterTruthyStr (l : List (Option String)) : List String :=
  l.filterMap fun o =>
    match o with
    | some s => if s = "" then none else some s
    | none => none

/-! ## Aggregator (dataProcessing.js) -/

/-- `extractUniqueTools`: `_.uniq(data.map(row => row.tool_name)).filter(Boolean).sort()`.
The list being deduplicated, `insertionSort` produces exactly the JS
sorted array. -/
def extractUniqueTools (data : List Record) : List String :=
  List.insertionSort (· ≤ ·) (filterTruthyStr (jsUniq (data.map Record.tool_name)))

/-- Result shape of `calculateToolStats`. -/
structure ToolStats where
  name : String
  count : Nat
  avgDuration : JsVal
  errorRate : JsVal
  avgTokens : JsVal
  stepDistribution : List (Option Nat × Nat)
  useCases : Nat
  promptTokens : JsVal
  completionTokens : JsVal
deriving DecidableEq, Repr

/-- `calculateToolStats(data, toolName)`. -/
def calculateToolStats (data : List Record) (toolName : String) : ToolStats :=
  let toolData := data.filter fun r => r.tool_name == some toolName
  { name := toolName
    count := toolData.length
    avgDuration := lodashMeanBy (toolData.map fun r => optToJs r.duration)
    errorRate := jsRatio (toolData.filter fun r => r.has_error).length toolData.length
    avgTokens := lodashMeanBy (toolData.map fun r => optToJs r.token_count)
    stepDistribution := countByKey (toolData.map Record.step)
    useCases := (jsUniq (toolData.map Record.subdir)).length
    promptTokens := jsOrZero (lodashMeanBy (toolData.map fun r => optToJs r.prompt_tokens))
    completionTokens := jsOrZero (lodashMeanBy (toolData.map fun r => optToJs r.completion_tokens)) }

/-- `getAllToolStats(data)`. -/
def getAllToolStats (data : List Record) : List ToolStats :=
  (extractUniqueTools data).map (calculateToolStats data)

/-- One entry of a per-step tool distribution in `prepareToolMetrics`. -/
structure ToolDistEntry where
  tool : Option String
  count : Nat
  percentage : ℚ
deriving DecidableEq, Repr

/-- Per-step summary produced by `prepareToolMetrics`. -/
structure StepMetric where
  toolDistribution : List ToolDistEntry
  avgDuration : JsVal
  errorRate : JsVal
  avgTokens : JsVal
  avgTimePerToken : JsVal
deriving DecidableEq, Repr

/-- The `tokenDistribution` sub-object of `prepareToolMetrics`. -/
structure TokenDistribution where
  completion : JsVal
  prompt : JsVal
  cached_tokens_pct : JsVal
deriving DecidableEq, Repr

/-- Result shape of `prepareToolMetrics`. -/
structure ToolMetrics where
  stepMetrics : List (Option Nat × StepMetric)
  overallErrorRate : JsVal
  avgDuration : JsVal
  avgTokens : JsVal
  tokenDistribution : TokenDistribution
deriving DecidableEq, Repr

/-- The iteratee `row => row.duration / (row.token_count || 1)` used by
`avgTimePerToken`; an absent duration gives `undefined / x = NaN`. -/
def timePerToken (r : Record) : JsVal :=
  let denom : ℚ :=
    match r.token_count with
    | some t => if t = 0 then 1 else t
    | none => 1
  match r.duration with
  | some d => .num (d / denom)
  | none => .nan

/-- `prepareToolMetrics(data, toolName)`.  `_.groupBy(..., 'step')` keys a
JS object by the stringified step, so `Object.entries` visits the
integer-like keys in ascending numeric order with the `"undefined"` key
(if any) after them; the key list below reproduces that order. -/
def prepareToolMetrics (data : List Record) (toolName : Option String) : ToolMetrics :=
  let filteredData :=
    match toolName with
    | some t => if t = "" then data else data.filter fun r => r.tool_name == some t
    | none => data
  let stepKeys : List (Option Nat) :=
    (List.insertionSort (· ≤ ·) (jsUniq (filteredData.filterMap Record.step))).map some
      ++ (if filteredData.any (fun r => r.step.isNone) then [none] else [])
  let stepMetrics := stepKeys.map fun k =>
    let rows := filteredData.filter fun r => r.step == k
    let toolCounts := countByKey (rows.map Record.tool_name)
    let totalCount : Nat := rows.length
    let metric : StepMetric :=
      { toolDistribution :=
          toolCounts.map fun tc => ⟨tc.1, tc.2, ((tc.2 : ℚ) / (totalCount : ℚ)) * 100⟩
        avgDuration := lodashMeanBy (rows.map fun r => optToJs r.duration)
        errorRate := jsRatio (rows.filter fun r => r.has_error).length totalCount
        avgTokens := lodashMeanBy (rows.map fun r => optToJs r.token_count)
        avgTimePerToken := lodashMeanBy (rows.map timePerToken) }
    (k, metric)
  { stepMetrics := stepMetrics
    overallErrorRate :=
      jsRatio (filteredData.filter fun r => r.has_error).length filteredData.length
    avgDuration := lodashMeanBy (filteredData.map fun r => optToJs r.duration)
    avgTokens := lodashMeanBy (filteredData.map fun r => optToJs r.token_count)
    tokenDistribution :=
      { completion := lodashMeanBy (filteredData.map fun r => optToJs r.completion_tokens)
        prompt := lodashMeanBy (filteredData.map fun r => optToJs r.prompt_tokens)
        cached_tokens_pct :=
          lodashMeanBy (filteredData.map fun r => optToJs r.cached_tokens_pct) } }

/-- Result row of `calculateSimpleTokenMetrics`. -/
structure SimpleTokenMetrics where
  tool : String
  prompt : Int
  completion : Int
  total : Int
deriving DecidableEq, Repr

/-- `calculateSimpleTokenMetrics(data)`: sums `Number(field) || 0` (so an
absent field contributes `0`) and divides by the full per-tool row count. -/
def calculateSimpleTokenMetrics (data : List Record) : List SimpleTokenMetrics :=
  (extractUniqueTools data).map fun tool =>
    let toolData := data.filter fun r => r.tool_name == some tool
    if toolData.length = 0 then ⟨tool, 0, 0, 0⟩
    else
      let avgPrompt :=
        (toolData.map fun r => (r.prompt_tokens).getD 0).sum / (toolData.length : ℚ)
      let avgCompletion :=
        (toolData.map fun r => (r.completion_tokens).getD 0).sum / (toolData.length : ℚ)
      let avgTotal :=
        (toolData.map fun r => (r.token_count).getD 0).sum / (toolData.length : ℚ)
      ⟨tool, jsRound avgPrompt, jsRound avgCompletion, jsRound avgTotal⟩

/-- The mean reading that the specification prescribes for optional
numeric fields: rows where the field is absent are excluded from both
the sum and the divisor.  Stated from the spec's words, for comparison
with the implementation's means. -/
def specExcludedMean (l : List (Option ℚ)) : ℚ :=
  ((l.filterMap id).sum) / (((l.filterMap id).length : ℚ))

/-! ## Transition graph builder (`prepareSankeyData`) -/

/-- A node of the Sankey transition graph. -/
structure SankeyNode where
  name : String
  tool : String
  step : Nat
  x : ℚ
  hasErrors : Bool
  errorCount : Nat
  totalCount : Nat
  errorRate : ℚ
deriving DecidableEq, Repr

/-- A link of the Sankey transition graph; `source` and `target` are
node indices. -/
structure SankeyLink where
  source : Nat
  target : Nat
  value : Nat
  errorCount : Nat
  hasErrors : Bool
deriving DecidableEq, Repr

/-- The builder's mutable state: the `"tool @ Step n" ↦ index` map (a JS
`Map` in insertion order), the node and link arrays, and the running
node id counter. -/
structure SankeyState where
  nodeIndexMap : List (String × Nat)
  nodes : List SankeyNode
  links : List SankeyLink
  nodeId : Nat
deriving DecidableEq, Repr

/-- The initial builder state. -/
def initialSankeyState : SankeyState := ⟨[], [], [], 0⟩

/-- The row filter at the top of `prepareSankeyData`:
`!row.subdir || !row.tool_name || row.step === undefined` skips the row. -/
def validRow (r : Record) : Bool :=
  truthyStr r.subdir && truthyStr r.tool_name && r.step.isSome

/-- Append `r` to the group keyed by `k`, creating the group at the end
on first encounter (JS object key insertion order). -/
def insertGroup (gs : List (String × List Record)) (k : String) (r : Record) :
    List (String × List Record) :=
  match gs with
  | [] => [(k, [r])]
  | (k', rs) :: rest =>
    if k' = k then (k', rs ++ [r]) :: rest else (k', rs) :: insertGroup rest k r

/-- `groupedByUseCase`: valid rows grouped by `subdir` in encounter order. -/
def groupByUseCase (data : List Record) : List (String × List Record) :=
  (data.filter validRow).foldl (fun gs r => insertGroup gs (r.subdir.getD "") r) []

/-- The node key string `` `${tool} @ Step ${step}` ``. -/
def nodeKey (tool : String) (step : Nat) : String :=
  tool ++ " @ Step " ++ toString step

/-- Processing of one tool at one step of one use-case: compute the
error statistics, skip the node in error view when it carries no error,
and otherwise insert it if its key is new. -/
def processNodeAt (viewMode : String) (rows : List Record) (normalizedX : ℚ)
    (step : Nat) (st : SankeyState) (tool : String) : SankeyState :=
  let toolStepRows := rows.filter fun r =>
    r.step == some step && r.tool_name == some tool
  let errorRows := toolStepRows.filter fun r => r.has_error
  let hasErrors : Bool := errorRows.length > 0
  let errorRate : ℚ :=
    if toolStepRows.length > 0
    then (errorRows.length : ℚ) / (toolStepRows.length : ℚ) else 0
  if viewMode == "errors" && !hasErrors then st
  else
    let key := nodeKey tool step
    if (st.nodeIndexMap.lookup key).isSome then st
    else
      let node : SankeyNode :=
        ⟨key, tool, step, normalizedX, hasErrors,
         errorRows.length, toolStepRows.length, errorRate⟩
      { st with
        nodeIndexMap := st.nodeIndexMap ++ [(key, st.nodeId)]
        nodes := st.nodes ++ [node]
        nodeId := st.nodeId + 1 }

/-- `links.find(l => l.source === source && l.target === target)` followed
by an in-place update, or a push when no link matches.  Only the first
match is updated, as `Array.prototype.find` returns.  The code reads
`existing.errorCount || 0`, which on a numeric field is the identity. -/
def updateFirstLink : List SankeyLink → Nat → Nat → Nat → Nat → Bool → List SankeyLink
  | [], s, t, v, e, h => [⟨s, t, v, e, h⟩]
  | l :: rest, s, t, v, e, h =>
    if l.source == s && l.target == t then
      ⟨l.source, l.target, l.value + v, l.errorCount + e, l.hasErrors || h⟩ :: rest
    else l :: updateFirstLink rest s t v e h

/-- The link pass between `fromStep` and `toStep` of one use-case: for
every pair of tools present at the two steps, count the matching source
rows (the inner `rows.some` reproduces the co-occurrence test of the
source) and create or grow the link — provided both endpoint keys are
already present in `nodeIndexMap`. -/
def processLinksFor (viewMode : String) (rows : List Record)
    (fromTools toTools : List String) (fromStep toStep : Nat)
    (st : SankeyState) : SankeyState :=
  fromTools.foldl
    (fun st1 fromTool =>
      match st1.nodeIndexMap.lookup (nodeKey fromTool fromStep) with
      | none => st1
      | some source =>
        toTools.foldl
          (fun st2 toTool =>
            match st2.nodeIndexMap.lookup (nodeKey toTool toStep) with
            | none => st2
            | some target =>
              let transitions := rows.filter fun r =>
                r.step == some fromStep && r.tool_name == some fromTool &&
                  rows.any fun next =>
                    next.subdir == r.subdir && next.step == some toStep &&
                      next.tool_name == some toTool
              let errorTransitions := transitions.filter fun r => r.has_error
              let hasErrors : Bool := errorTransitions.length > 0
              if viewMode == "errors" && !hasErrors then st2
              else if transitions.length > 0 then
                let newLinks := updateFirstLink st2.links source target
                  transitions.length errorTransitions.length hasErrors
                { st2 with links := newLinks }
              else st2)
          st1)
    st

/-- The distinct tools observed at `step` within one use-case
(`stepMap[step]`), in first-encounter order. -/
def stepTools (rows : List Record) (step : Nat) : List String :=
  jsUniq ((rows.filter fun r => r.step == some step).map fun r => r.tool_name.getD "")

/-- The body of `steps.forEach((step, i) => ...)`: add the step's nodes,
then, unless this is the last step, run the link pass toward the next
step.  `normalizedX = i / (stepCount - 1 || 1)`. -/
def processStep (viewMode : String) (rows : List Record) (steps : List Nat)
    (st : SankeyState) (istep : Nat × Nat) : SankeyState :=
  let i := istep.1
  let step := istep.2
  let stepCount := steps.length
  let normalizedX : ℚ :=
    (i : ℚ) / (if stepCount - 1 = 0 then (1 : ℚ) else ((stepCount - 1 : Nat) : ℚ))
  let st1 := (stepTools rows step).foldl (processNodeAt viewMode rows normalizedX step) st
  if i < steps.length - 1 then
    let toStep := steps.getD (i + 1) 0
    processLinksFor viewMode rows (stepTools rows step) (stepTools rows toStep)
      step toStep st1
  else st1

/-- Processing of one use-case: its distinct steps in ascending order,
then the per-step node and link passes. -/
def processUseCase (viewMode : String) (st : SankeyState) (rows : List Record) :
    SankeyState :=
  let steps := List.insertionSort (· ≤ ·) (jsUniq (rows.map fun r => r.step.getD 0))
  steps.enum.foldl (processStep viewMode rows steps) st

/-- The fixed 20-color palette of `prepareSankeyData`. -/
def sankeyColors : List String :=
  ["#e6194B", "#3cb44b", "#ffe119", "#4363d8", "#f58231",
   "#911eb4", "#42d4f4", "#f032e6", "#bfef45", "#fabebe",
   "#469990", "#dcbeff", "#9A6324", "#800000", "#aaffc3",
   "#808000", "#ffd8b1", "#000075", "#a9a9a9", "#000000"]

/-- `Array.from(toolSet).sort()`: the distinct tool names of the valid
rows, sorted (the set is deduplicated, so `insertionSort` yields the JS
sorted array). -/
def sankeyToolList (data : List Record) : List String :=
  List.insertionSort (· ≤ ·)
    (jsUniq ((data.filter validRow).map fun r => r.tool_name.getD ""))

/-- The default tool→color assignment: palette entry at the tool's index
in the sorted distinct-tool list, modulo the palette length. -/
def defaultToolColors (data : List Record) : List (String × String) :=
  (sankeyToolList data).enum.map fun p =>
    (p.2, sankeyColors.getD (p.1 % sankeyColors.length) "")

/-- Result shape of `prepareSankeyData`. -/
structure SankeyResult where
  nodes : List SankeyNode
  links : List SankeyLink
  toolColors : List (String × String)
  stepCount : Nat
  nodeX : List ℚ
  viewMode : String
deriving DecidableEq, Repr

/-- `prepareSankeyData(data, existingColorMap, viewMode)`.
`stepCount` is `Math.max(...nodes.map(n => n.step || 0), 1)` (for a `Nat`
step, `step || 0` is the identity). -/
def prepareSankeyData (data : List Record)
    (existingColorMap : Option (List (String × String))) (viewMode : String) :
    SankeyResult :=
  let final := (groupByUseCase data).foldl
    (fun st g => processUseCase viewMode st g.2) initialSankeyState
  let toolColors :=
    match existingColorMap with
    | some m => m
    | none => defaultToolColors data
  { nodes := final.nodes
    links := final.links
    toolColors := toolColors
    stepCount := (final.nodes.map SankeyNode.step).foldr max 1
    nodeX := final.nodes.map SankeyNode.x
    viewMode := viewMode }

/-! ## Concrete record sequences used by the claims -/

/-- Two use-cases, each with tool "A" at step 1 and tool "B" at step 2. -/
def twoUseCaseData : List Record :=
  [{ tool_name := some "A", subdir := some "u1", step := some 1 },
   { tool_name := some "B", subdir := some "u1", step := some 2 },
   { tool_name := some "A", subdir := some "u2", step := some 1 },
   { tool_name := some "B", subdir := some "u2", step := some 2 }]

/-- The spec's error-attribution scenario: X at step 1 (no error), Y at
step 2 (error), one use-case. -/
def errorScenarioData : List Record :=
  [{ tool_name := some "X", subdir := some "u1", step := some 1 },
   { tool_name := some "Y", subdir := some "u1", step := some 2, has_error := true }]

/-- A record whose `tool_name` is the empty string (non-null). -/
def emptyNameData : List Record := [{ tool_name := some "" }]

/-- One tool with a numeric field present on one row and absent on the
other. -/
def absentFieldData : List Record :=
  [{ tool_name := some "a", duration := some 4, token_count := some 4,
     prompt_tokens := some 4 },
   { tool_name := some "a" }]

/-! ## C1 -/

/-- C1: in "all" mode, node identity is indeed unique per `(tool, step)`
pair on the two-use-case scenario (one "A" node, one "B" node), but the
single A→B edge has weight 1, not the claimed 2: during the first
use-case's link pass the target node `B @ Step 2` has not been inserted
into `nodeIndexMap` yet (its insertion happens one step-iteration
later), so the `has(toKey)` guard drops that use-case's transition and
only the second use-case contributes to the edge. -/
theorem C1_first_use_case_link_dropped :
    ((prepareSankeyData twoUseCaseData none "all").nodes.map
        fun n => (n.tool, n.step)) = [("A", 1), ("B", 2)] ∧
    (prepareSankeyData twoUseCaseData none "all").links =
      [⟨0, 1, 1, 0, false⟩] ∧
    (prepareSankeyData twoUseCaseData none "all").links ≠
      [⟨0, 1, 2, 0, false⟩] := by
  refine ⟨by decide, by decide, by decide⟩

/-! ## C6 -/

/-- C6: on the spec's scenario the normal-mode graph does have 2 nodes
with the error flag counted on the target node (X has `errorCount = 0`,
Y has `errorCount = 1`), but it has no edge at all — not the claimed
single edge of weight 1 — because `Y @ Step 2` is created only after
the step-1→2 link pass has already run. -/
theorem C6_error_scenario_has_no_edge :
    ((prepareSankeyData errorScenarioData none "all").nodes.map
        fun n => (n.tool, n.step, n.errorCount, n.totalCount)) =
      [("X", 1, 0, 1), ("Y", 2, 1, 1)] ∧
    (prepareSankeyData errorScenarioData none "all").links = [] ∧
    ((prepareSankeyData errorScenarioData none "all").links.map
        SankeyLink.value) ≠ [1] := by
  refine ⟨by decide, by decide, by decide⟩

/-! ## C3 -/

/-- C3 counterexample: on the empty record sequence `prepareToolMetrics`
does not guard its divisions — `overallErrorRate` is the JS value
`0 / 0 = NaN` and `avgDuration` is `_.meanBy([]) = NaN`; neither is `0`. -/
theorem C3_empty_input_yields_nan :
    (prepareToolMetrics [] none).overallErrorRate = JsVal.nan ∧
    (prepareToolMetrics [] none).avgDuration = JsVal.nan ∧
    (prepareToolMetrics [] none).overallErrorRate ≠ JsVal.num 0 ∧
    (prepareToolMetrics [] none).avgDuration ≠ JsVal.num 0 := by
  refine ⟨by decide, by decide, by decide, by decide⟩

/-- C3 amended: on the empty sequence the pipeline does not throw and
returns well-formed results — `getAllToolStats` yields the empty list
(so `calculateToolStats` is never reached) and `prepareToolMetrics`
yields empty `stepMetrics` — but its overall error rate and every mean
are `NaN` (unguarded `0/0` and mean-of-empty-array), not `0`. -/
theorem C3_empty_input_shape (toolName : Option String) :
    getAllToolStats [] = [] ∧
    prepareToolMetrics [] toolName =
      ⟨[], JsVal.nan, JsVal.nan, JsVal.nan, ⟨JsVal.nan, JsVal.nan, JsVal.nan⟩⟩ := by
  refine ⟨rfl, ?_⟩
  match toolName with
  | none => rfl
  | some t =>
    simp only [prepareToolMetrics]
    split <;> rfl

/-! ## C2 -/

/-- C2 counterexample: a record whose `tool_name` is the empty string is
non-null, yet `extractUniqueTools` drops it (`.filter(Boolean)`), so the
summary counts sum to 0 while one record has a non-null `tool_name`. -/
theorem C2_empty_string_tool_name :
    ((getAllToolStats emptyNameData).map ToolStats.count).sum ≠
      (emptyNameData.filter fun r => r.tool_name.isSome).length := by
  decide

/-! ## C9 -/

/-- C9 counterexample: with the field present on one of a tool's two
rows, both aggregation sites keep the absent row in the divisor — the
implementation's mean is `(4 + 0) / 2 = 2` — whereas the claimed
excluded-from-average reading gives `4 / 1 = 4`. -/
theorem C9_absent_rows_counted_in_divisor :
    (calculateToolStats absentFieldData "a").avgDuration ≠
      JsVal.num (specExcludedMean (absentFieldData.map Record.duration)) ∧
    ((calculateSimpleTokenMetrics absentFieldData).map SimpleTokenMetrics.prompt) ≠
      [jsRound (specExcludedMean (absentFieldData.map Record.prompt_tokens))] := by
  have h1 : (calculateToolStats absentFieldData "a").avgDuration = JsVal.num 2 := by
    simp [calculateToolStats, absentFieldData, lodashMeanBy, baseSum, baseSumStep,
      optToJs, jsAdd]
    norm_num
  have h2 : specExcludedMean (absentFieldData.map Record.duration) = 4 := by
    simp [specExcludedMean, absentFieldData]
  have h3 : ((calculateSimpleTokenMetrics absentFieldData).map
      SimpleTokenMetrics.prompt) = [2] := by
    simp [calculateSimpleTokenMetrics, absentFieldData, extractUniqueTools, jsUniq,
      jsUniqAux, filterTruthyStr, jsRound]
    norm_num
  have h4 : specExcludedMean (absentFieldData.map Record.prompt_tokens) = 4 := by
    simp [specExcludedMean, absentFieldData]
  rw [h1, h2, h3, h4]
  refine ⟨by simp, by simp [jsRound]; norm_num⟩

/-! ## C7 -/

/-- C7: `prepareSankeyData` is a pure function of its arguments — two
calls on the same record sequence, color-map argument and view mode
return the same node sequence (hence the same indices), the same edge
list with the same weights, the same colors and the same step count. -/
theorem C7_sankey_deterministic (d1 d2 : List Record)
    (c1 c2 : Option (List (String × String))) (m1 m2 : String)
    (hd : d1 = d2) (hc : c1 = c2) (hm : m1 = m2) :
    (prepareSankeyData d1 c1 m1).nodes = (prepareSankeyData d2 c2 m2).nodes ∧
    (prepareSankeyData d1 c1 m1).links = (prepareSankeyData d2 c2 m2).links ∧
    (prepareSankeyData d1 c1 m1).toolColors = (prepareSankeyData d2 c2 m2).toolColors ∧
    (prepareSankeyData d1 c1 m1).stepCount = (prepareSankeyData d2 c2 m2).stepCount ∧
    (prepareSankeyData d1 c1 m1).nodeX = (prepareSankeyData d2 c2 m2).nodeX := by
  subst hd; subst hc; subst hm
  exact ⟨rfl, rfl, rfl, rfl, rfl⟩

/-- Witness for C7 at a concrete input. -/
theorem C7_sankey_deterministic_witness :
    (prepareSankeyData twoUseCaseData none "all").nodes =
      (prepareSankeyData twoUseCaseData none "all").nodes ∧
    (prepareSankeyData twoUseCaseData none "all").links =
      (prepareSankeyData twoUseCaseData none "all").links ∧
    (prepareSankeyData twoUseCaseData none "all").toolColors =
      (prepareSankeyData twoUseCaseData none "all").toolColors ∧
    (prepareSankeyData twoUseCaseData none "all").stepCount =
      (prepareSankeyData twoUseCaseData none "all").stepCount ∧
    (prepareSankeyData twoUseCaseData none "all").nodeX =
      (prepareSankeyData twoUseCaseData none "all").nodeX :=
  C7_sankey_deterministic twoUseCaseData twoUseCaseData none none "all" "all"
    rfl rfl rfl

/-! ## Lemmas about the JS helpers -/

theorem baseSumStep_foldl_num (l : List (Option ℚ)) (a : ℚ) :
    (l.map optToJs).foldl baseSumStep (JsVal.num a) =
      JsVal.num (a + (l.map fun o => o.getD 0).sum) := by
  induction l generalizing a with
  | nil => simp
  | cons o tl ih =>
    cases o with
    | none => simpa [optToJs, baseSumStep] using ih a
    | some q =>
      simp only [List.map_cons, List.foldl_cons, List.sum_cons, optToJs,
        baseSumStep, jsAdd, Option.getD_some]
      rw [ih (a + q)]
      exact congrArg JsVal.num (by ring)

theorem baseSum_optToJs_all_none (l : List (Option ℚ))
    (h : ∀ o ∈ l, o = none) : baseSum (l.map optToJs) = JsVal.undefined := by
  induction l with
  | nil => rfl
  | cons o tl ih =>
    have ho := h o (by simp)
    subst ho
    simpa [baseSum, optToJs, baseSumStep] using
      ih fun o hmem => h o (by simp [hmem])

theorem baseSum_optToJs_of_some (l : List (Option ℚ))
    (h : ∃ o ∈ l, o.isSome) :
    baseSum (l.map optToJs) = JsVal.num ((l.map fun o => o.getD 0).sum) := by
  induction l with
  | nil => simp at h
  | cons o tl ih =>
    cases o with
    | some q =>
      simp only [List.map_cons, List.sum_cons, baseSum, List.foldl_cons,
        optToJs, baseSumStep, Option.getD_some]
      exact baseSumStep_foldl_num tl q
    | none =>
      have htl : ∃ o ∈ tl, o.isSome := by
        rcases h with ⟨o, hmem, hsome⟩
        rcases List.mem_cons.mp hmem with h1 | h1
        · subst h1; simp at hsome
        · exact ⟨o, h1, hsome⟩
      simpa [baseSum, optToJs, baseSumStep] using ih htl

theorem lodashMeanBy_optToJs_of_some (l : List (Option ℚ))
    (h : ∃ o ∈ l, o.isSome) :
    lodashMeanBy (l.map optToJs) =
      JsVal.num ((l.map fun o => o.getD 0).sum / (l.length : ℚ)) := by
  have hne : l ≠ [] := by rintro rfl; simp at h
  rw [lodashMeanBy, baseSum_optToJs_of_some l h]
  simp [List.length_map, hne]

theorem lodashMeanBy_optToJs_all_none (l : List (Option ℚ))
    (h : ∀ o ∈ l, o = none) : lodashMeanBy (l.map optToJs) = JsVal.nan := by
  rw [lodashMeanBy, baseSum_optToJs_all_none l h]
  split <;> rfl

/-- C9 amended: the aggregator does not exclude rows with an absent
field from the mean — `_.meanBy` skips absent values in the sum but
divides by the full per-tool row count, so an absent field contributes
a zero while the row still enlarges the divisor; only when the field is
absent on every row of the tool does the mean degenerate to `NaN`. -/
theorem C9_amended_zero_filled_mean (data : List Record) (tool : String) :
    ((∃ r ∈ data.filter (fun r => r.tool_name == some tool), r.duration.isSome) →
      (calculateToolStats data tool).avgDuration =
        JsVal.num
          ((((data.filter fun r => r.tool_name == some tool).map
              fun r => r.duration.getD 0).sum) /
            (((data.filter fun r => r.tool_name == some tool).length : ℚ)))) ∧
    ((∀ r ∈ data.filter (fun r => r.tool_name == some tool), r.duration = none) →
      (calculateToolStats data tool).avgDuration = JsVal.nan) := by
  constructor
  · intro h
    have := lodashMeanBy_optToJs_of_some
      ((data.filter fun r => r.tool_name == some tool).map Record.duration)
      (by rcases h with ⟨r, hmem, hsome⟩
          exact ⟨r.duration, List.mem_map_of_mem Record.duration hmem, hsome⟩)
    simpa [calculateToolStats, Function.comp] using this
  · intro h
    have := lodashMeanBy_optToJs_all_none
      ((data.filter fun r => r.tool_name == some tool).map Record.duration)
      (by intro o hmem
          rcases List.mem_map.mp hmem with ⟨r, hr, rfl⟩
          exact h r hr)
    simpa [calculateToolStats, Function.comp] using this

/-- Witness for the amended C9 at the concrete two-row input. -/
theorem C9_amended_zero_filled_mean_witness :
    (∃ r ∈ absentFieldData.filter (fun r => r.tool_name == some "a"),
      r.duration.isSome) ∧
    (calculateToolStats absentFieldData "a").avgDuration =
      JsVal.num
        ((((absentFieldData.filter fun r => r.tool_name == some "a").map
            fun r => r.duration.getD 0).sum) /
          (((absentFieldData.filter fun r => r.tool_name == some "a").length : ℚ))) :=
  ⟨by decide, (C9_amended_zero_filled_mean absentFieldData "a").1 (by decide)⟩

/-! ## Lemmas about `jsUniq` and `extractUniqueTools` -/

theorem mem_jsUniqAux [DecidableEq α] (seen : List α) (l : List α) (a : α) :
    a ∈ jsUniqAux seen l ↔ a ∈ l ∧ a ∉ seen := by
  induction l generalizing seen with
  | nil => simp [jsUniqAux]
  | cons x xs ih =>
    by_cases hx : x ∈ seen
    · simp only [jsUniqAux, if_pos hx, ih, List.mem_cons]
      constructor
      · rintro ⟨h1, h2⟩
        exact ⟨Or.inr h1, h2⟩
      · rintro ⟨h1 | h1, h2⟩
        · exact absurd (h1 ▸ hx) h2
        · exact ⟨h1, h2⟩
    · simp only [jsUniqAux, if_neg hx, List.mem_cons, ih]
      constructor
      · rintro (h1 | ⟨h1, h2⟩)
        · exact ⟨Or.inl h1, h1 ▸ hx⟩
        · exact ⟨Or.inr h1, fun hs => h2 (Or.inr hs)⟩
      · rintro ⟨h1 | h1, h2⟩
        · exact Or.inl h1
        · by_cases hax : a = x
          · exact Or.inl hax
          · refine Or.inr ⟨h1, ?_⟩
            rintro (h3 | h3)
            · exact hax h3
            · exact h2 h3

theorem mem_jsUniq [DecidableEq α] (l : List α) (a : α) :
    a ∈ jsUniq l ↔ a ∈ l := by
  simp [jsUniq, mem_jsUniqAux]

theorem nodup_jsUniqAux [DecidableEq α] (seen : List α) (l : List α) :
    (jsUniqAux seen l).Nodup := by
  induction l generalizing seen with
  | nil => simp [jsUniqAux]
  | cons x xs ih =>
    by_cases hx : x ∈ seen
    · simpa [jsUniqAux, hx] using ih seen
    · simp only [jsUniqAux, if_neg hx, List.nodup_cons]
      refine ⟨?_, ih (x :: seen)⟩
      intro hmem
      exact ((mem_jsUniqAux (x :: seen) xs x).mp hmem).2 (List.mem_cons_self x seen)

theorem nodup_jsUniq [DecidableEq α] (l : List α) : (jsUniq l).Nodup :=
  nodup_jsUniqAux [] l

theorem mem_filterTruthyStr (l : List (Option String)) (t : String) :
    t ∈ filterTruthyStr l ↔ some t ∈ l ∧ t ≠ "" := by
  rw [filterTruthyStr, List.mem_filterMap]
  constructor
  · rintro ⟨o, ho, hf⟩
    cases o with
    | none => simp at hf
    | some s =>
      by_cases hs : s = ""
      · simp [hs] at hf
      · simp only [if_neg hs, Option.some.injEq] at hf
        exact ⟨hf ▸ ho, hf ▸ hs⟩
  · rintro ⟨hmem, hne⟩
    exact ⟨some t, hmem, by simp [hne]⟩

theorem nodup_filterTruthyStr (l : List (Option String)) (h : l.Nodup) :
    (filterTruthyStr l).Nodup := by
  refine List.Nodup.filterMap ?_ h
  intro a b t hta htb
  cases a with
  | none => simp at hta
  | some s =>
    cases b with
    | none => simp at htb
    | some u =>
      by_cases hs : s = ""
      · simp [hs] at hta
      · by_cases hu : u = ""
        · simp [hu] at htb
        · simp only [if_neg hs, Option.mem_def, Option.some.injEq] at hta
          simp only [if_neg hu, Option.mem_def, Option.some.injEq] at htb
          rw [hta, htb]

theorem mem_extractUniqueTools (data : List Record) (t : String) :
    t ∈ extractUniqueTools data ↔
      some t ∈ data.map Record.tool_name ∧ t ≠ "" := by
  rw [extractUniqueTools,
    (List.perm_insertionSort (· ≤ ·) _).mem_iff,
    mem_filterTruthyStr, mem_jsUniq]

theorem nodup_extractUniqueTools (data : List Record) :
    (extractUniqueTools data).Nodup :=
  ((List.perm_insertionSort (· ≤ ·) _).nodup_iff).mpr
    (nodup_filterTruthyStr _ (nodup_jsUniq _))

/-! ## C2: counting lemmas -/

/-- Membership of a record's tool name in a given tool list (proof-side
device for the counting argument). -/
def memTool (ts : List String) (r : Record) : Bool :=
  match r.tool_name with
  | some s => decide (s ∈ ts)
  | none => false

theorem length_filter_or_of_disjoint {p q : Record → Bool} (l : List Record)
    (h : ∀ r, p r = true → q r = false) :
    (l.filter fun r => p r || q r).length =
      (l.filter p).length + (l.filter q).length := by
  induction l with
  | nil => rfl
  | cons x tl ih =>
    by_cases hp : p x
    · have hq := h x hp
      simp only [List.filter_cons, hp, hq, Bool.true_or, if_pos, List.length_cons, ih]
      simp
      omega
    · by_cases hq : q x <;>
        simp only [List.filter_cons, hp, hq, Bool.false_or, List.length_cons, ih] <;>
        simp <;> omega

theorem memTool_cons (t : String) (ts : List String) (r : Record) :
    memTool (t :: ts) r = ((r.tool_name == some t) || memTool ts r) := by
  cases h : r.tool_name with
  | none => simp [memTool, h]
  | some s =>
    simp only [memTool, h, List.mem_cons, beq_eq_decide, Option.some.injEq]
    by_cases h1 : s = t <;> by_cases h2 : s ∈ ts <;> simp [h1, h2]

theorem sum_counts_eq_filter_mem (data : List Record) (ts : List String)
    (hno : ts.Nodup) :
    ((ts.map fun t => (data.filter fun r => r.tool_name == some t).length).sum)
      = (data.filter (memTool ts)).length := by
  induction ts with
  | nil =>
    have hnil : data.filter (memTool []) = [] := by
      rw [List.filter_eq_nil_iff]
      intro r _
      cases h : r.tool_name <;> simp [memTool, h]
    simp [hnil]
  | cons t ts ih =>
    rcases List.nodup_cons.mp hno with ⟨hnt, hts⟩
    have hcong : data.filter (memTool (t :: ts)) =
        data.filter fun r => (r.tool_name == some t) || memTool ts r :=
      List.filter_congr fun r _ => memTool_cons t ts r
    have hdisj : ∀ r : Record, (r.tool_name == some t) = true → memTool ts r = false := by
      intro r hr
      have hname : r.tool_name = some t := by simpa using hr
      simp [memTool, hname, hnt]
    rw [List.map_cons, List.sum_cons, ih hts, hcong,
      length_filter_or_of_disjoint data hdisj]

/-- C2 amended: for every non-empty record sequence the summary counts
of `getAllToolStats` sum to the number of records whose `tool_name` is
truthy — non-null *and* non-empty — because `extractUniqueTools` filters
tool names through JS `Boolean`, which also drops the empty string. -/
theorem C2_sum_counts_truthy (data : List Record) (_hne : data ≠ []) :
    ((getAllToolStats data).map ToolStats.count).sum =
      (data.filter fun r => truthyStr r.tool_name).length := by
  have hkey : ∀ r ∈ data,
      memTool (extractUniqueTools data) r = truthyStr r.tool_name := by
    intro r hr
    cases h : r.tool_name with
    | none => simp [memTool, truthyStr, h]
    | some s =>
      simp only [memTool, truthyStr, h]
      by_cases hs : s = ""
      · subst hs
        have hnm : "" ∉ extractUniqueTools data := fun hmem =>
          ((mem_extractUniqueTools data "").mp hmem).2 rfl
        simp [hnm]
      · have hmm : s ∈ extractUniqueTools data :=
          (mem_extractUniqueTools data s).mpr
            ⟨h ▸ List.mem_map_of_mem Record.tool_name hr, hs⟩
        simp [hmm, hs]
  calc ((getAllToolStats data).map ToolStats.count).sum
      = ((extractUniqueTools data).map
          fun t => (data.filter fun r => r.tool_name == some t).length).sum := by
        rw [getAllToolStats, List.map_map]
        exact congrArg List.sum (List.map_congr_left fun t _ => rfl)
    _ = (data.filter (memTool (extractUniqueTools data))).length :=
        sum_counts_eq_filter_mem data _ (nodup_extractUniqueTools data)
    _ = (data.filter fun r => truthyStr r.tool_name).length := by
        rw [List.filter_congr hkey]

/-- Witness for the amended C2 at a concrete non-empty input. -/
theorem C2_sum_counts_truthy_witness :
    twoUseCaseData ≠ [] ∧
    ((getAllToolStats twoUseCaseData).map ToolStats.count).sum =
      (twoUseCaseData.filter fun r => truthyStr r.tool_name).length :=
  ⟨by decide, C2_sum_counts_truthy twoUseCaseData (by decide)⟩

/-! ## C10: stepCount -/

theorem foldr_max_one (l : List Nat) :
    l.foldr max 1 = max (l.foldr max 0) 1 := by
  induction l with
  | nil => rfl
  | cons a tl ih =>
    simp only [List.foldr_cons, ih]
    omega

theorem le_foldr_max (l : List Nat) (b a : Nat) (h : a ∈ l) :
    a ≤ l.foldr max b := by
  induction l with
  | nil => simp at h
  | cons x tl ih =>
    rcases List.mem_cons.mp h with h1 | h1
    · subst h1
      exact le_max_left _ _
    · exact le_trans (ih h1) (le_max_right _ _)

theorem init_le_foldr_max (l : List Nat) (b : Nat) : b ≤ l.foldr max b := by
  induction l with
  | nil => exact le_refl b
  | cons x tl ih => exact le_trans ih (le_max_right _ _)

/-- C10: the returned `stepCount` is the maximum step value occurring
among the graph's nodes, lower-bounded by 1 (`Math.max(...steps, 1)`),
and on the empty record sequence the graph has no nodes and no links
while `stepCount` is 1. -/
theorem C10_stepCount_max (data : List Record)
    (cmap : Option (List (String × String))) (viewMode : String) :
    (prepareSankeyData data cmap viewMode).stepCount =
      max (((prepareSankeyData data cmap viewMode).nodes.map
        SankeyNode.step).foldr max 0) 1 ∧
    (∀ n ∈ (prepareSankeyData data cmap viewMode).nodes,
      n.step ≤ (prepareSankeyData data cmap viewMode).stepCount) ∧
    1 ≤ (prepareSankeyData data cmap viewMode).stepCount ∧
    ((prepareSankeyData [] cmap viewMode).nodes = [] ∧
      (prepareSankeyData [] cmap viewMode).links = [] ∧
      (prepareSankeyData [] cmap viewMode).stepCount = 1) := by
  refine ⟨?_, ?_, ?_, ?_, ?_, ?_⟩
  · exact foldr_max_one _
  · intro n hn
    exact le_foldr_max _ 1 n.step (List.mem_map_of_mem SankeyNode.step hn)
  · exact init_le_foldr_max
      ((prepareSankeyData data cmap viewMode).nodes.map SankeyNode.step) 1
  · rfl
  · rfl
  · rfl

/-! ## Invariants of the graph builder -/

theorem foldl_preserves {α β : Type} {P : β → Prop} (f : β → α → β) (l : List α)
    (h : ∀ b, ∀ a ∈ l, P b → P (f b a)) (b : β) (hb : P b) : P (l.foldl f b) := by
  induction l generalizing b with
  | nil => exact hb
  | cons x xs ih =>
    exact ih (fun b' a ha hb' => h b' a (List.mem_cons_of_mem x ha) hb')
      (f b x) (h b x (List.mem_cons_self x xs) hb)

/-- Case analysis of `processNodeAt`: the state is unchanged because the
error view filtered the node out, unchanged because the key already
exists, or extended by exactly one node (and one map entry) whose fields
are known. -/
theorem processNodeAt_shape (vm : String) (rows : List Record) (nx : ℚ)
    (step : Nat) (st : SankeyState) (tool : String) :
    (processNodeAt vm rows nx step st tool = st ∧
      (vm == "errors") = true ∧
      ((rows.filter fun r => r.step == some step && r.tool_name == some tool).filter
        fun r => r.has_error).length = 0) ∨
    (processNodeAt vm rows nx step st tool = st ∧
      (st.nodeIndexMap.lookup (nodeKey tool step)).isSome = true) ∨
    (∃ n : SankeyNode,
      processNodeAt vm rows nx step st tool =
        { nodeIndexMap := st.nodeIndexMap ++ [(nodeKey tool step, st.nodeId)]
          nodes := st.nodes ++ [n]
          links := st.links
          nodeId := st.nodeId + 1 } ∧
      (st.nodeIndexMap.lookup (nodeKey tool step)).isSome = false ∧
      n.x = nx ∧ n.tool = tool ∧ n.step = step ∧ n.name = nodeKey tool step ∧
      n.errorCount =
        ((rows.filter fun r => r.step == some step && r.tool_name == some tool).filter
          fun r => r.has_error).length ∧
      ((vm == "errors") = true → 1 ≤ n.errorCount)) := by
  simp only [processNodeAt]
  by_cases h1 : (vm == "errors" &&
      !(decide (0 < ((rows.filter fun r => r.step == some step &&
        r.tool_name == some tool).filter fun r => r.has_error).length))) = true
  · rw [if_pos h1]
    rcases Bool.and_eq_true_iff.mp h1 with ⟨hvm, hlen⟩
    refine Or.inl ⟨rfl, hvm, ?_⟩
    have hd : decide (0 < ((rows.filter fun r => r.step == some step &&
        r.tool_name == some tool).filter fun r => r.has_error).length) = false := by
      cases hcase : decide (0 < ((rows.filter fun r => r.step == some step &&
          r.tool_name == some tool).filter fun r => r.has_error).length)
      · rfl
      · rw [hcase] at hlen
        exact absurd hlen (by decide)
    have hnot := of_decide_eq_false hd
    omega
  · rw [if_neg h1]
    cases hlook : (st.nodeIndexMap.lookup (nodeKey tool step)).isSome
    · rw [if_neg (by simp)]
      refine Or.inr (Or.inr ⟨_, rfl, rfl, rfl, rfl, rfl, rfl, rfl, ?_⟩)
      intro hvm
      rw [hvm] at h1
      simp only [Bool.true_and] at h1
      have hd : decide (0 < ((rows.filter fun r => r.step == some step &&
          r.tool_name == some tool).filter fun r => r.has_error).length) = true := by
        cases hcase : decide (0 < ((rows.filter fun r => r.step == some step &&
            r.tool_name == some tool).filter fun r => r.has_error).length)
        · rw [hcase] at h1
          exact absurd rfl h1
        · rfl
      exact of_decide_eq_true hd
    · rw [if_pos rfl]
      exact Or.inr (Or.inl ⟨rfl, rfl⟩)

theorem updateFirstLink_errCount (s t v e : Nat) (hb : Bool) (he : 1 ≤ e) :
    ∀ (links : List SankeyLink), (∀ l ∈ links, 1 ≤ l.errorCount) →
      ∀ l ∈ updateFirstLink links s t v e hb, 1 ≤ l.errorCount := by
  intro links
  induction links with
  | nil =>
    intro _ l hl
    rw [updateFirstLink] at hl
    rcases List.mem_singleton.mp hl with rfl
    exact he
  | cons x rest ih =>
    intro h l hl
    rw [updateFirstLink] at hl
    by_cases hx : (x.source == s && x.target == t) = true
    · rw [if_pos hx] at hl
      rcases List.mem_cons.mp hl with h1 | h1
      · subst h1
        have := h x (List.mem_cons_self x rest)
        simp only []
        omega
      · exact h l (List.mem_cons_of_mem x h1)
    · rw [if_neg hx] at hl
      rcases List.mem_cons.mp hl with h1 | h1
      · subst h1
        exact h l (List.mem_cons_self l rest)
      · exact ih (fun l2 hl2 => h l2 (List.mem_cons_of_mem x hl2)) l h1

theorem prop_of_ite {c : Prop} [Decidable c] {α : Type} {P : α → Prop} {a b : α}
    (ha : c → P a) (hb : ¬c → P b) : P (if c then a else b) := by
  by_cases h : c
  · rw [if_pos h]; exact ha h
  · rw [if_neg h]; exact hb h

theorem processLinksFor_fields (vm : String) (rows : List Record)
    (ft tt : List String) (fs ts : Nat) (st : SankeyState) :
    (processLinksFor vm rows ft tt fs ts st).nodeIndexMap = st.nodeIndexMap ∧
    (processLinksFor vm rows ft tt fs ts st).nodes = st.nodes ∧
    (processLinksFor vm rows ft tt fs ts st).nodeId = st.nodeId := by
  rw [processLinksFor]
  refine foldl_preserves
    (P := fun s => s.nodeIndexMap = st.nodeIndexMap ∧ s.nodes = st.nodes ∧
      s.nodeId = st.nodeId) _ ft ?_ st ⟨rfl, rfl, rfl⟩
  intro st1 ftool _ h1
  dsimp only
  cases st1.nodeIndexMap.lookup (nodeKey ftool fs) with
  | none => exact h1
  | some source =>
    refine foldl_preserves
      (P := fun s => s.nodeIndexMap = st.nodeIndexMap ∧ s.nodes = st.nodes ∧
        s.nodeId = st.nodeId) _ tt ?_ st1 h1
    intro st2 ttool _ h2
    dsimp only
    cases st2.nodeIndexMap.lookup (nodeKey ttool ts) with
    | none => exact h2
    | some target =>
      refine prop_of_ite (P := fun (s : SankeyState) => s.nodeIndexMap = st.nodeIndexMap ∧
        s.nodes = st.nodes ∧ s.nodeId = st.nodeId) (fun _ => h2) (fun _ => ?_)
      exact prop_of_ite (P := fun (s : SankeyState) => s.nodeIndexMap = st.nodeIndexMap ∧
        s.nodes = st.nodes ∧ s.nodeId = st.nodeId) (fun _ => h2) (fun _ => h2)

theorem errors_guard {b : Bool} (h : ¬(("errors" == "errors") && !b) = true) :
    b = true := by
  simp only [beq_self_eq_true, Bool.true_and] at h
  cases b
  · simp at h
  · rfl

theorem processLinksFor_errors_links (rows : List Record) (ft tt : List String)
    (fs ts : Nat) (st : SankeyState)
    (h : ∀ l ∈ st.links, 1 ≤ l.errorCount) :
    ∀ l ∈ (processLinksFor "errors" rows ft tt fs ts st).links,
      1 ≤ l.errorCount := by
  rw [processLinksFor]
  refine foldl_preserves
    (P := fun s => ∀ l ∈ s.links, 1 ≤ l.errorCount) _ ft ?_ st h
  intro st1 ftool _ h1
  dsimp only
  cases st1.nodeIndexMap.lookup (nodeKey ftool fs) with
  | none => exact h1
  | some source =>
    refine foldl_preserves
      (P := fun s => ∀ l ∈ s.links, 1 ≤ l.errorCount) _ tt ?_ st1 h1
    intro st2 ttool _ h2
    dsimp only
    cases st2.nodeIndexMap.lookup (nodeKey ttool ts) with
    | none => exact h2
    | some target =>
      refine prop_of_ite (P := fun (s : SankeyState) => ∀ l ∈ s.links, 1 ≤ l.errorCount)
        (fun _ => h2) (fun hcond => ?_)
      refine prop_of_ite (P := fun (s : SankeyState) => ∀ l ∈ s.links, 1 ≤ l.errorCount)
        (fun _ => ?_) (fun _ => h2)
      have herr := errors_guard hcond
      exact updateFirstLink_errCount source target _ _ _
        (Nat.succ_le_of_lt (of_decide_eq_true herr)) st2.links h2

/-! ## Grouping lemmas -/

theorem insertGroup_prop {P : Record → Prop} (k : String) (r0 : Record)
    (hr0 : P r0) (hk : r0.subdir.getD "" = k) :
    ∀ (gs : List (String × List Record)),
      (∀ g ∈ gs, g.2 ≠ [] ∧ ∀ r ∈ g.2, P r ∧ r.subdir.getD "" = g.1) →
      ∀ g ∈ insertGroup gs k r0, g.2 ≠ [] ∧ ∀ r ∈ g.2, P r ∧ r.subdir.getD "" = g.1 := by
  intro gs
  induction gs with
  | nil =>
    intro _ g hg
    rw [insertGroup] at hg
    rcases List.mem_singleton.mp hg with rfl
    refine ⟨by simp, ?_⟩
    intro r hr
    rcases List.mem_singleton.mp hr with rfl
    exact ⟨hr0, hk⟩
  | cons p rest ih =>
    obtain ⟨kp, rs⟩ := p
    intro hgs g hg
    rw [insertGroup] at hg
    by_cases hkp : kp = k
    · rw [if_pos hkp] at hg
      rcases List.mem_cons.mp hg with h1 | h1
      · subst h1
        refine ⟨by simp, ?_⟩
        intro r hr
        rcases List.mem_append.mp hr with h2 | h2
        · exact (hgs (kp, rs) (List.mem_cons_self _ _)).2 r h2
        · rcases List.mem_singleton.mp h2 with rfl
          exact ⟨hr0, by rw [hk, hkp]⟩
      · exact hgs g (List.mem_cons_of_mem _ h1)
    · rw [if_neg hkp] at hg
      rcases List.mem_cons.mp hg with h1 | h1
      · subst h1
        exact hgs (kp, rs) (List.mem_cons_self _ _)
      · exact ih (fun g2 hg2 => hgs g2 (List.mem_cons_of_mem _ hg2)) g h1

theorem groupByUseCase_prop (data : List Record) :
    ∀ g ∈ groupByUseCase data, g.2 ≠ [] ∧
      ∀ r ∈ g.2, (r ∈ data ∧ validRow r = true) ∧ r.subdir.getD "" = g.1 := by
  rw [groupByUseCase]
  refine foldl_preserves
    (P := fun (gs : List (String × List Record)) => ∀ g ∈ gs, g.2 ≠ [] ∧
      ∀ r ∈ g.2, (r ∈ data ∧ validRow r = true) ∧ r.subdir.getD "" = g.1)
    _ _ ?_ [] (by simp)
  intro gs r hrmem hgs
  have hrd := List.mem_filter.mp hrmem
  exact insertGroup_prop _ r ⟨hrd.1, hrd.2⟩ rfl gs hgs

theorem insertGroup_ne_nil (gs : List (String × List Record)) (k : String)
    (r : Record) : insertGroup gs k r ≠ [] := by
  cases gs with
  | nil => simp [insertGroup]
  | cons p rest =>
    obtain ⟨kp, rs⟩ := p
    rw [insertGroup]
    split <;> simp

theorem groupByUseCase_ne_nil (data : List Record)
    (h : ∃ r ∈ data, validRow r = true) : groupByUseCase data ≠ [] := by
  rw [groupByUseCase]
  rcases h with ⟨r, hr, hv⟩
  have hmem : r ∈ data.filter validRow := List.mem_filter.mpr ⟨hr, hv⟩
  cases hfd : data.filter validRow with
  | nil => rw [hfd] at hmem; simp at hmem
  | cons r0 rest =>
    simp only [List.foldl_cons]
    refine foldl_preserves (P := fun gs => gs ≠ []) _ rest ?_ _
      (insertGroup_ne_nil [] _ r0)
    intro gs a _ _
    exact insertGroup_ne_nil gs _ a

/-! ## State invariants through the per-use-case passes -/

/-- The node-index map and the node array stay in lockstep. -/
def stateW (st : SankeyState) : Prop :=
  st.nodeIndexMap.length = st.nodes.length

theorem processNodeAt_W (vm : String) (rows : List Record) (nx : ℚ) (step : Nat)
    (st : SankeyState) (tool : String) (h : stateW st) :
    stateW (processNodeAt vm rows nx step st tool) := by
  rcases processNodeAt_shape vm rows nx step st tool with
    ⟨heq, _⟩ | ⟨heq, _⟩ | ⟨n, heq, _⟩
  · rw [heq]; exact h
  · rw [heq]; exact h
  · rw [heq]
    simp only [stateW, List.length_append, List.length_cons, List.length_nil]
    rw [stateW] at h
    omega

theorem processLinksFor_W (vm : String) (rows : List Record)
    (ft tt : List String) (fs ts : Nat) (st : SankeyState) (h : stateW st) :
    stateW (processLinksFor vm rows ft tt fs ts st) := by
  obtain ⟨h1, h2, _⟩ := processLinksFor_fields vm rows ft tt fs ts st
  rw [stateW, h1, h2]
  exact h

theorem processStep_W (vm : String) (rows : List Record) (steps : List Nat)
    (st : SankeyState) (istep : Nat × Nat) (h : stateW st) :
    stateW (processStep vm rows steps st istep) := by
  rw [processStep]
  dsimp only
  refine prop_of_ite (P := fun (s : SankeyState) => stateW s)
    (fun _ => ?_) (fun _ => ?_)
  · exact processLinksFor_W _ _ _ _ _ _ _
      (foldl_preserves _ _ (fun b a _ hb => processNodeAt_W _ _ _ _ b a hb) st h)
  · exact foldl_preserves _ _ (fun b a _ hb => processNodeAt_W _ _ _ _ b a hb) st h

theorem processUseCase_W (vm : String) (st : SankeyState) (rows : List Record)
    (h : stateW st) : stateW (processUseCase vm st rows) := by
  rw [processUseCase]
  exact foldl_preserves _ _ (fun b a _ hb => processStep_W _ _ _ b a hb) st h

/-! ## C4: the error view drops everything without errors -/

theorem processNodeAt_errors_nodes (rows : List Record) (nx : ℚ) (step : Nat)
    (st : SankeyState) (tool : String)
    (h : ∀ n ∈ st.nodes, 1 ≤ n.errorCount) :
    ∀ n ∈ (processNodeAt "errors" rows nx step st tool).nodes,
      1 ≤ n.errorCount := by
  rcases processNodeAt_shape "errors" rows nx step st tool with
    ⟨heq, _⟩ | ⟨heq, _⟩ | ⟨n, heq, _, _, _, _, _, _, herr⟩
  · rw [heq]; exact h
  · rw [heq]; exact h
  · rw [heq]
    intro m hm
    rcases List.mem_append.mp hm with h1 | h1
    · exact h m h1
    · rcases List.mem_singleton.mp h1 with rfl
      exact herr rfl

theorem processNodeAt_links_eq (vm : String) (rows : List Record) (nx : ℚ)
    (step : Nat) (st : SankeyState) (tool : String) :
    (processNodeAt vm rows nx step st tool).links = st.links := by
  rcases processNodeAt_shape vm rows nx step st tool with
    ⟨heq, _⟩ | ⟨heq, _⟩ | ⟨n, heq, _⟩
  · rw [heq]
  · rw [heq]
  · rw [heq]

/-- Both error-count invariants hold through one step of the "errors"
view pass. -/
theorem processStep_errors_inv (rows : List Record) (steps : List Nat)
    (st : SankeyState) (istep : Nat × Nat)
    (h : (∀ n ∈ st.nodes, 1 ≤ n.errorCount) ∧ (∀ l ∈ st.links, 1 ≤ l.errorCount)) :
    (∀ n ∈ (processStep "errors" rows steps st istep).nodes, 1 ≤ n.errorCount) ∧
    (∀ l ∈ (processStep "errors" rows steps st istep).links, 1 ≤ l.errorCount) := by
  rw [processStep]
  dsimp only
  have hfold : ∀ (b : SankeyState),
      ((∀ n ∈ b.nodes, 1 ≤ n.errorCount) ∧ (∀ l ∈ b.links, 1 ≤ l.errorCount)) →
      ∀ tools : List String,
      (∀ n ∈ (tools.foldl (processNodeAt "errors" rows
          ((istep.1 : ℚ) / (if steps.length - 1 = 0 then (1 : ℚ)
            else ((steps.length - 1 : Nat) : ℚ))) istep.2) b).nodes,
        1 ≤ n.errorCount) ∧
      (∀ l ∈ (tools.foldl (processNodeAt "errors" rows
          ((istep.1 : ℚ) / (if steps.length - 1 = 0 then (1 : ℚ)
            else ((steps.length - 1 : Nat) : ℚ))) istep.2) b).links,
        1 ≤ l.errorCount) := by
    intro b hb tools
    refine foldl_preserves
      (P := fun (s : SankeyState) => (∀ n ∈ s.nodes, 1 ≤ n.errorCount) ∧
        (∀ l ∈ s.links, 1 ≤ l.errorCount)) _ tools ?_ b hb
    intro b2 tool _ hb2
    refine ⟨processNodeAt_errors_nodes _ _ _ b2 tool hb2.1, ?_⟩
    rw [processNodeAt_links_eq]
    exact hb2.2
  refine prop_of_ite (P := fun (s : SankeyState) =>
    (∀ n ∈ s.nodes, 1 ≤ n.errorCount) ∧ (∀ l ∈ s.links, 1 ≤ l.errorCount))
    (fun _ => ?_) (fun _ => ?_)
  · obtain ⟨hm, hn, _⟩ := processLinksFor_fields "errors" rows
      (stepTools rows istep.2) (stepTools rows (steps.getD (istep.1 + 1) 0))
      istep.2 (steps.getD (istep.1 + 1) 0) _
    constructor
    · rw [hn]
      exact (hfold st h (stepTools rows istep.2)).1
    · exact processLinksFor_errors_links _ _ _ _ _ _
        (hfold st h (stepTools rows istep.2)).2
  · exact hfold st h (stepTools rows istep.2)

theorem processUseCase_errors_inv (st : SankeyState) (rows : List Record)
    (h : (∀ n ∈ st.nodes, 1 ≤ n.errorCount) ∧ (∀ l ∈ st.links, 1 ≤ l.errorCount)) :
    (∀ n ∈ (processUseCase "errors" st rows).nodes, 1 ≤ n.errorCount) ∧
    (∀ l ∈ (processUseCase "errors" st rows).links, 1 ≤ l.errorCount) := by
  rw [processUseCase]
  exact foldl_preserves
    (P := fun (s : SankeyState) => (∀ n ∈ s.nodes, 1 ≤ n.errorCount) ∧
      (∀ l ∈ s.links, 1 ≤ l.errorCount))
    _ _ (fun b a _ hb => processStep_errors_inv rows _ b a hb) st h

theorem processNodeAt_no_error_init (rows : List Record) (nx : ℚ) (step : Nat)
    (tool : String) (hrows : ∀ r ∈ rows, r.has_error = false) :
    processNodeAt "errors" rows nx step initialSankeyState tool =
      initialSankeyState := by
  have hnil : ((rows.filter fun r => r.step == some step &&
      r.tool_name == some tool).filter fun r => r.has_error) = [] := by
    rw [List.filter_eq_nil_iff]
    intro r hr
    simp [hrows r (List.mem_filter.mp hr).1]
  rcases processNodeAt_shape "errors" rows nx step initialSankeyState tool with
    ⟨heq, _⟩ | ⟨heq, _⟩ | ⟨n, heq, _, _, _, _, _, hcnt, herr⟩
  · exact heq
  · exact heq
  · exfalso
    have h1 := herr rfl
    rw [hcnt, hnil] at h1
    simp at h1

theorem processLinksFor_init (vm : String) (rows : List Record)
    (ft tt : List String) (fs ts : Nat) :
    processLinksFor vm rows ft tt fs ts initialSankeyState =
      initialSankeyState := by
  rw [processLinksFor]
  refine foldl_preserves (P := fun (s : SankeyState) => s = initialSankeyState)
    _ ft ?_ _ rfl
  intro st1 ftool _ h1
  subst h1
  rfl

theorem processStep_no_error_init (rows : List Record) (steps : List Nat)
    (istep : Nat × Nat) (hrows : ∀ r ∈ rows, r.has_error = false) :
    processStep "errors" rows steps initialSankeyState istep =
      initialSankeyState := by
  rw [processStep]
  dsimp only
  have hfold : ∀ tools : List String,
      tools.foldl (processNodeAt "errors" rows
        ((istep.1 : ℚ) / (if steps.length - 1 = 0 then (1 : ℚ)
          else ((steps.length - 1 : Nat) : ℚ))) istep.2) initialSankeyState =
        initialSankeyState := by
    intro tools
    refine foldl_preserves (P := fun (s : SankeyState) => s = initialSankeyState)
      _ tools ?_ _ rfl
    intro b tool _ hb
    subst hb
    exact processNodeAt_no_error_init rows _ _ tool hrows
  refine prop_of_ite (P := fun (s : SankeyState) => s = initialSankeyState)
    (fun _ => ?_) (fun _ => hfold _)
  rw [hfold]
  exact processLinksFor_init _ _ _ _ _ _

theorem processUseCase_no_error_init (rows : List Record)
    (hrows : ∀ r ∈ rows, r.has_error = false) :
    processUseCase "errors" initialSankeyState rows = initialSankeyState := by
  rw [processUseCase]
  refine foldl_preserves (P := fun (s : SankeyState) => s = initialSankeyState)
    _ _ ?_ _ rfl
  intro b a _ hb
  subst hb
  exact processStep_no_error_init rows _ a hrows

/-- C4: in the "errors" view, every node and every link that survives
carries at least one error (zero-error nodes and edges are omitted, not
restyled), and a record sequence with no error row yields an empty node
list and an empty link list. -/
theorem C4_errors_view_filtered (data : List Record)
    (cmap : Option (List (String × String))) :
    (∀ n ∈ (prepareSankeyData data cmap "errors").nodes, 1 ≤ n.errorCount) ∧
    (∀ l ∈ (prepareSankeyData data cmap "errors").links, 1 ≤ l.errorCount) ∧
    ((∀ r ∈ data, r.has_error = false) →
      (prepareSankeyData data cmap "errors").nodes = [] ∧
      (prepareSankeyData data cmap "errors").links = []) := by
  have hmain : (∀ n ∈ ((groupByUseCase data).foldl
        (fun st g => processUseCase "errors" st g.2) initialSankeyState).nodes,
        1 ≤ n.errorCount) ∧
      (∀ l ∈ ((groupByUseCase data).foldl
        (fun st g => processUseCase "errors" st g.2) initialSankeyState).links,
        1 ≤ l.errorCount) := by
    refine foldl_preserves
      (P := fun (s : SankeyState) => (∀ n ∈ s.nodes, 1 ≤ n.errorCount) ∧
        (∀ l ∈ s.links, 1 ≤ l.errorCount)) _ _ ?_ _ ⟨by simp [initialSankeyState], by simp [initialSankeyState]⟩
    intro b g _ hb
    exact processUseCase_errors_inv b g.2 hb
  refine ⟨hmain.1, hmain.2, ?_⟩
  intro hnoerr
  have hinit : ((groupByUseCase data).foldl
      (fun st g => processUseCase "errors" st g.2) initialSankeyState) =
      initialSankeyState := by
    refine foldl_preserves (P := fun (s : SankeyState) => s = initialSankeyState)
      _ _ ?_ _ rfl
    intro b g hg hb
    subst hb
    refine processUseCase_no_error_init g.2 ?_
    intro r hr
    exact hnoerr r (((groupByUseCase_prop data g hg).2 r hr).1).1
  constructor
  · show ((groupByUseCase data).foldl
      (fun st g => processUseCase "errors" st g.2) initialSankeyState).nodes = []
    rw [hinit]
    rfl
  · show ((groupByUseCase data).foldl
      (fun st g => processUseCase "errors" st g.2) initialSankeyState).links = []
    rw [hinit]
    rfl

/-- Witness for C4: a one-error input keeps its error node, and a
no-error input yields the empty "errors"-view graph. -/
theorem C4_errors_view_filtered_witness :
    (∀ n ∈ (prepareSankeyData errorScenarioData none "errors").nodes,
      1 ≤ n.errorCount) ∧
    ((prepareSankeyData twoUseCaseData none "errors").nodes = [] ∧
      (prepareSankeyData twoUseCaseData none "errors").links = []) :=
  ⟨(C4_errors_view_filtered errorScenarioData none).1,
   (C4_errors_view_filtered twoUseCaseData none).2.2 (by decide)⟩

/-! ## C5: single-step use-cases and the empty input -/

theorem jsUniqAux_all_seen [DecidableEq α] (seen : List α) (l : List α)
    (h : ∀ x ∈ l, x ∈ seen) : jsUniqAux seen l = [] := by
  induction l generalizing seen with
  | nil => rfl
  | cons x xs ih =>
    rw [jsUniqAux, if_pos (h x (List.mem_cons_self x xs))]
    exact ih seen fun y hy => h y (List.mem_cons_of_mem x hy)

theorem jsUniq_const [DecidableEq α] (l : List α) (v : α)
    (h : ∀ x ∈ l, x = v) (hne : l ≠ []) : jsUniq l = [v] := by
  cases l with
  | nil => exact absurd rfl hne
  | cons x xs =>
    have hx : x = v := h x (List.mem_cons_self x xs)
    subst hx
    rw [jsUniq, jsUniqAux, if_neg (by simp)]
    rw [jsUniqAux_all_seen]
    intro y hy
    rw [h y (List.mem_cons_of_mem x hy)]
    exact List.mem_cons_self x []

theorem jsUniq_ne_nil [DecidableEq α] (l : List α) (hne : l ≠ []) :
    jsUniq l ≠ [] := by
  cases l with
  | nil => exact absurd rfl hne
  | cons x xs =>
    rw [jsUniq, jsUniqAux, if_neg (by simp)]
    simp

theorem insertionSort_singleton {α : Type} (r : α → α → Prop) [DecidableRel r]
    (a : α) : List.insertionSort r [a] = [a] := rfl

theorem processNodeAt_nodes_mono (vm : String) (rows : List Record) (nx : ℚ)
    (step : Nat) (st : SankeyState) (tool : String) :
    ∃ tail, (processNodeAt vm rows nx step st tool).nodes = st.nodes ++ tail := by
  rcases processNodeAt_shape vm rows nx step st tool with
    ⟨heq, _⟩ | ⟨heq, _⟩ | ⟨n, heq, _⟩
  · exact ⟨[], by rw [heq]; simp⟩
  · exact ⟨[], by rw [heq]; simp⟩
  · exact ⟨[n], by rw [heq]⟩

theorem processStep_nodes_mono (vm : String) (rows : List Record)
    (steps : List Nat) (st : SankeyState) (istep : Nat × Nat) :
    ∃ tail, (processStep vm rows steps st istep).nodes = st.nodes ++ tail := by
  rw [processStep]
  dsimp only
  have hfold : ∀ (tools : List String) (b : SankeyState),
      (∃ t1, b.nodes = st.nodes ++ t1) →
      ∃ tail, (tools.foldl (processNodeAt vm rows
        ((istep.1 : ℚ) / (if steps.length - 1 = 0 then (1 : ℚ)
          else ((steps.length - 1 : Nat) : ℚ))) istep.2) b).nodes =
        st.nodes ++ tail := by
    intro tools b hb
    refine foldl_preserves
      (P := fun (s : SankeyState) => ∃ t1, s.nodes = st.nodes ++ t1)
      _ tools ?_ b hb
    intro b2 tool _ hb2
    rcases hb2 with ⟨t1, ht1⟩
    rcases processNodeAt_nodes_mono vm rows _ istep.2 b2 tool with ⟨t2, ht2⟩
    exact ⟨t1 ++ t2, by rw [ht2, ht1, List.append_assoc]⟩
  refine prop_of_ite
    (P := fun (s : SankeyState) => ∃ tail, s.nodes = st.nodes ++ tail)
    (fun _ => ?_) (fun _ => ?_)
  · obtain ⟨_, hn, _⟩ := processLinksFor_fields vm rows
      (stepTools rows istep.2) (stepTools rows (steps.getD (istep.1 + 1) 0))
      istep.2 (steps.getD (istep.1 + 1) 0) _
    rcases hfold (stepTools rows istep.2) st ⟨[], by simp⟩ with ⟨tail, htail⟩
    exact ⟨tail, by rw [hn, htail]⟩
  · exact hfold (stepTools rows istep.2) st ⟨[], by simp⟩

theorem processUseCase_nodes_mono (vm : String) (st : SankeyState)
    (rows : List Record) :
    ∃ tail, (processUseCase vm st rows).nodes = st.nodes ++ tail := by
  rw [processUseCase]
  refine foldl_preserves
    (P := fun (s : SankeyState) => ∃ t1, s.nodes = st.nodes ++ t1)
    _ _ ?_ st ⟨[], by simp⟩
  intro b istep _ hb
  rcases hb with ⟨t1, ht1⟩
  rcases processStep_nodes_mono vm rows _ b istep with ⟨t2, ht2⟩
  exact ⟨t1 ++ t2, by rw [ht2, ht1, List.append_assoc]⟩

theorem lookup_isSome_ne_nil {l : List (String × Nat)} {k : String}
    (h : (l.lookup k).isSome = true) : l ≠ [] := by
  cases l with
  | nil => simp [List.lookup] at h
  | cons p rest => simp

theorem processNodeAt_all_nonempty (rows : List Record) (nx : ℚ) (s0 : Nat)
    (st : SankeyState) (tool : String) (hW : stateW st) :
    (processNodeAt "all" rows nx s0 st tool).nodes ≠ [] := by
  rcases processNodeAt_shape "all" rows nx s0 st tool with
    ⟨_, hvm, _⟩ | ⟨heq, hlook⟩ | ⟨n, heq, _⟩
  · exact absurd hvm (by decide)
  · rw [heq]
    have hmne : st.nodeIndexMap ≠ [] := lookup_isSome_ne_nil hlook
    intro hc
    apply hmne
    have : st.nodeIndexMap.length = 0 := by
      rw [stateW] at hW
      rw [hW, hc]
      rfl
    exact List.length_eq_zero.mp this
  · rw [heq]
    simp

theorem fold_processNodeAt_nodes_ne_nil (vm : String) (rows : List Record)
    (nx : ℚ) (s0 : Nat) (tools : List String) (b : SankeyState)
    (hb : b.nodes ≠ []) :
    ((tools.foldl (processNodeAt vm rows nx s0) b).nodes ≠ []) := by
  refine foldl_preserves (P := fun (s : SankeyState) => s.nodes ≠ [])
    _ tools ?_ b hb
  intro b2 tool _ hb2
  rcases processNodeAt_nodes_mono vm rows nx s0 b2 tool with ⟨tail, heq⟩
  rw [heq]
  intro hc
  exact hb2 (List.append_eq_nil.mp hc).1

theorem processStep_all_nonempty (rows : List Record) (steps : List Nat)
    (st : SankeyState) (istep : Nat × Nat) (hW : stateW st)
    (htools : stepTools rows istep.2 ≠ []) :
    (processStep "all" rows steps st istep).nodes ≠ [] := by
  rw [processStep]
  dsimp only
  have hfold : ((stepTools rows istep.2).foldl (processNodeAt "all" rows
      ((istep.1 : ℚ) / (if steps.length - 1 = 0 then (1 : ℚ)
        else ((steps.length - 1 : Nat) : ℚ))) istep.2) st).nodes ≠ [] := by
    cases htl : stepTools rows istep.2 with
    | nil => exact absurd htl htools
    | cons t0 trest =>
      rw [List.foldl_cons]
      exact fold_processNodeAt_nodes_ne_nil _ _ _ _ trest _
        (processNodeAt_all_nonempty rows _ istep.2 st t0 hW)
  refine prop_of_ite (P := fun (s : SankeyState) => s.nodes ≠ [])
    (fun _ => ?_) (fun _ => hfold)
  obtain ⟨_, hn, _⟩ := processLinksFor_fields "all" rows
    (stepTools rows istep.2) (stepTools rows (steps.getD (istep.1 + 1) 0))
    istep.2 (steps.getD (istep.1 + 1) 0) _
  rw [hn]
  exact hfold

theorem validRow_step_some {r : Record} (hv : validRow r = true) :
    r.step = some (r.step.getD 0) := by
  rw [validRow] at hv
  rcases Bool.and_eq_true_iff.mp hv with ⟨_, hstep⟩
  cases h : r.step with
  | none => rw [h] at hstep; simp at hstep
  | some v => simp

theorem stepTools_ne_nil_of_mem (rows : List Record) (s0 : Nat)
    (hv : ∀ r ∈ rows, validRow r = true)
    (h : ∃ r ∈ rows, r.step.getD 0 = s0) : stepTools rows s0 ≠ [] := by
  rcases h with ⟨r, hr, hs⟩
  have hstep : r.step = some s0 := by
    rw [validRow_step_some (hv r hr), hs]
  have hmem : r ∈ rows.filter fun r2 => r2.step == some s0 := by
    refine List.mem_filter.mpr ⟨hr, ?_⟩
    rw [hstep]
    exact beq_self_eq_true _
  apply jsUniq_ne_nil
  intro hc
  rw [List.map_eq_nil_iff] at hc
  rw [hc] at hmem
  simp at hmem

theorem processUseCase_all_nonempty (st : SankeyState) (rows : List Record)
    (hW : stateW st) (hv : ∀ r ∈ rows, validRow r = true) (hne : rows ≠ []) :
    (processUseCase "all" st rows).nodes ≠ [] := by
  rw [processUseCase]
  have hmapne : rows.map (fun r => r.step.getD 0) ≠ [] := by
    intro hc
    exact hne (List.map_eq_nil_iff.mp hc)
  have hjne := jsUniq_ne_nil _ hmapne
  have hsortne : List.insertionSort (· ≤ ·)
      (jsUniq (rows.map fun r => r.step.getD 0)) ≠ [] := by
    intro hc
    apply hjne
    have := (List.perm_insertionSort (· ≤ ·)
      (jsUniq (rows.map fun r => r.step.getD 0))).length_eq
    rw [hc] at this
    exact List.length_eq_zero.mp this.symm
  cases hsteps : List.insertionSort (· ≤ ·)
      (jsUniq (rows.map fun r => r.step.getD 0)) with
  | nil => exact absurd hsteps hsortne
  | cons s0 srest =>
    rw [List.enum_cons]
    rw [List.foldl_cons]
    have hs0mem : ∃ r ∈ rows, r.step.getD 0 = s0 := by
      have : s0 ∈ List.insertionSort (· ≤ ·)
          (jsUniq (rows.map fun r => r.step.getD 0)) := by
        rw [hsteps]; exact List.mem_cons_self _ _
      have hmem := (mem_jsUniq _ _).mp
        ((List.perm_insertionSort (· ≤ ·) _).mem_iff.mp this)
      rcases List.mem_map.mp hmem with ⟨r, hr, hrs⟩
      exact ⟨r, hr, hrs⟩
    have hst1 : (processStep "all" rows (s0 :: srest) st (0, s0)).nodes ≠ [] :=
      processStep_all_nonempty rows (s0 :: srest) st (0, s0) hW
        (stepTools_ne_nil_of_mem rows s0 hv hs0mem)
    refine foldl_preserves (P := fun (s : SankeyState) => s.nodes ≠ [])
      _ _ ?_ _ hst1
    intro b istep _ hb
    rcases processStep_nodes_mono "all" rows (s0 :: srest) b istep with ⟨tail, heq⟩
    rw [heq]
    intro hc
    exact hb (List.append_eq_nil.mp hc).1

theorem processUseCase_single_step (vm : String) (st : SankeyState)
    (rows : List Record) (hv : ∀ r ∈ rows, validRow r = true)
    (hs : ∀ r1 ∈ rows, ∀ r2 ∈ rows, r1.step = r2.step) :
    (processUseCase vm st rows).links = st.links ∧
    ∀ n ∈ (processUseCase vm st rows).nodes, n ∈ st.nodes ∨ n.x = 0 := by
  rw [processUseCase]
  cases rows with
  | nil => exact ⟨rfl, fun n hn => Or.inl hn⟩
  | cons r0 rest =>
    have hconst : ∀ x ∈ (r0 :: rest).map (fun r => r.step.getD 0),
        x = r0.step.getD 0 := by
      intro x hx
      rcases List.mem_map.mp hx with ⟨r, hr, rfl⟩
      rw [hs r hr r0 (List.mem_cons_self r0 rest)]
    rw [jsUniq_const _ _ hconst (by simp), insertionSort_singleton]
    rw [List.enum_cons]
    simp only [List.enumFrom_nil, List.foldl_cons, List.foldl_nil]
    rw [processStep]
    dsimp only
    rw [if_neg (by simp)]
    refine foldl_preserves
      (P := fun (s : SankeyState) => s.links = st.links ∧
        ∀ n ∈ s.nodes, n ∈ st.nodes ∨ n.x = 0)
      _ _ ?_ st ⟨rfl, fun n hn => Or.inl hn⟩
    intro b tool _ hb
    refine ⟨by rw [processNodeAt_links_eq]; exact hb.1, ?_⟩
    rcases processNodeAt_shape vm (r0 :: rest) _ (r0.step.getD 0) b tool with
      ⟨heq, _⟩ | ⟨heq, _⟩ | ⟨n, heq, _, hx, _⟩
    · rw [heq]; exact hb.2
    · rw [heq]; exact hb.2
    · rw [heq]
      intro m hm
      rcases List.mem_append.mp hm with h1 | h1
      · exact hb.2 m h1
      · rcases List.mem_singleton.mp h1 with rfl
        refine Or.inr ?_
        rw [hx]
        norm_num

theorem validRow_subdir_some {r : Record} (hv : validRow r = true) :
    r.subdir = some (r.subdir.getD "") := by
  rw [validRow] at hv
  rcases Bool.and_eq_true_iff.mp hv with ⟨h1, _⟩
  rcases Bool.and_eq_true_iff.mp h1 with ⟨hsub, _⟩
  cases h : r.subdir with
  | none => rw [h] at hsub; simp [truthyStr] at hsub
  | some v => simp

/-- A use-case whose records all share one step contributes nodes but no
links, each such node has `normalizedPosition` 0 (the `stepCount-1 || 1`
guard), and the empty record sequence yields an empty graph. -/
theorem C5_single_step_and_empty (data : List Record)
    (cmap : Option (List (String × String)))
    (hs : ∀ r1 ∈ data, ∀ r2 ∈ data, validRow r1 = true → validRow r2 = true →
      r1.subdir = r2.subdir → r1.step = r2.step) :
    (prepareSankeyData data cmap "all").links = [] ∧
    (∀ n ∈ (prepareSankeyData data cmap "all").nodes, n.x = 0) ∧
    ((∃ r ∈ data, validRow r = true) →
      (prepareSankeyData data cmap "all").nodes ≠ []) ∧
    ((prepareSankeyData [] cmap "all").nodes = [] ∧
      (prepareSankeyData [] cmap "all").links = []) := by
  have hmain : ((groupByUseCase data).foldl
        (fun st g => processUseCase "all" st g.2) initialSankeyState).links = [] ∧
      (∀ n ∈ ((groupByUseCase data).foldl
        (fun st g => processUseCase "all" st g.2) initialSankeyState).nodes,
        n.x = 0) := by
    have hfold := foldl_preserves
      (P := fun (s : SankeyState) => s.links = [] ∧ (∀ n ∈ s.nodes, n.x = 0))
      (fun st g => processUseCase "all" st g.2) (groupByUseCase data) ?_
      initialSankeyState ⟨rfl, by simp [initialSankeyState]⟩
    · exact hfold
    intro b g hg hb
    have hgp := groupByUseCase_prop data g hg
    have hv : ∀ r ∈ g.2, validRow r = true := fun r hr => ((hgp.2 r hr).1).2
    have hstep : ∀ r1 ∈ g.2, ∀ r2 ∈ g.2, r1.step = r2.step := by
      intro r1 h1 r2 h2
      have hv1 := hv r1 h1
      have hv2 := hv r2 h2
      refine hs r1 ((hgp.2 r1 h1).1).1 r2 ((hgp.2 r2 h2).1).1 hv1 hv2 ?_
      rw [validRow_subdir_some hv1, validRow_subdir_some hv2,
        (hgp.2 r1 h1).2, (hgp.2 r2 h2).2]
    obtain ⟨hlinks, hnodes⟩ := processUseCase_single_step "all" b g.2 hv hstep
    refine ⟨by rw [hlinks]; exact hb.1, ?_⟩
    intro n hn
    rcases hnodes n hn with h1 | h1
    · exact hb.2 n h1
    · exact h1
  refine ⟨hmain.1, hmain.2, ?_, rfl, rfl⟩
  intro hex
  have hgne := groupByUseCase_ne_nil data hex
  show ((groupByUseCase data).foldl
    (fun st g => processUseCase "all" st g.2) initialSankeyState).nodes ≠ []
  cases hgs : groupByUseCase data with
  | nil => exact absurd hgs hgne
  | cons g0 grest =>
    rw [List.foldl_cons]
    have hg0 : g0 ∈ groupByUseCase data := by
      rw [hgs]; exact List.mem_cons_self _ _
    have hgp := groupByUseCase_prop data g0 hg0
    have hst1 : (processUseCase "all" initialSankeyState g0.2).nodes ≠ [] :=
      processUseCase_all_nonempty initialSankeyState g0.2 rfl
        (fun r hr => ((hgp.2 r hr).1).2) hgp.1
    refine foldl_preserves (P := fun (s : SankeyState) => s.nodes ≠ [])
      _ _ ?_ _ hst1
    intro b g _ hb
    rcases processUseCase_nodes_mono "all" b g.2 with ⟨tail, heq⟩
    rw [heq]
    intro hc
    exact hb (List.append_eq_nil.mp hc).1

/-- Witness for C5 at a concrete single-step input. -/
theorem C5_single_step_and_empty_witness :
    (prepareSankeyData errorScenarioData.tail none "all").links = [] ∧
    (prepareSankeyData errorScenarioData.tail none "all").nodes ≠ [] :=
  ⟨(C5_single_step_and_empty errorScenarioData.tail none (by decide)).1,
   (C5_single_step_and_empty errorScenarioData.tail none (by decide)).2.2.1
     (by decide)⟩

/-! ## C8: deterministic color assignment -/

theorem sankeyToolList_sorted (data : List Record) :
    List.Sorted (· ≤ ·) (sankeyToolList data) :=
  List.sorted_insertionSort (· ≤ ·) _

theorem sankeyToolList_nodup (data : List Record) :
    (sankeyToolList data).Nodup :=
  ((List.perm_insertionSort (· ≤ ·) _).nodup_iff).mpr (nodup_jsUniq _)

theorem mem_sankeyToolList (data : List Record) (t : String) :
    t ∈ sankeyToolList data ↔
      ∃ r ∈ data, validRow r = true ∧ r.tool_name = some t := by
  rw [sankeyToolList, (List.perm_insertionSort (· ≤ ·) _).mem_iff, mem_jsUniq]
  constructor
  · intro h
    rcases List.mem_map.mp h with ⟨r, hr, hrt⟩
    have hf := List.mem_filter.mp hr
    refine ⟨r, hf.1, hf.2, ?_⟩
    rw [validRow] at hf
    rcases Bool.and_eq_true_iff.mp hf.2 with ⟨h1, _⟩
    rcases Bool.and_eq_true_iff.mp h1 with ⟨_, hname⟩
    cases hn : r.tool_name with
    | none => rw [hn] at hname; simp [truthyStr] at hname
    | some v =>
      rw [hn] at hrt
      simp only [Option.getD_some] at hrt
      rw [hrt]
  · rintro ⟨r, hr, hv, hname⟩
    refine List.mem_map.mpr ⟨r, List.mem_filter.mpr ⟨hr, hv⟩, ?_⟩
    rw [hname]
    rfl

theorem sankeyToolList_eq_of_same_names (d1 d2 : List Record)
    (h : ∀ t : String, (∃ r ∈ d1, validRow r = true ∧ r.tool_name = some t) ↔
      (∃ r ∈ d2, validRow r = true ∧ r.tool_name = some t)) :
    sankeyToolList d1 = sankeyToolList d2 := by
  refine List.eq_of_perm_of_sorted ?_ (sankeyToolList_sorted d1)
    (sankeyToolList_sorted d2)
  refine (List.perm_ext_iff_of_nodup (sankeyToolList_nodup d1)
    (sankeyToolList_nodup d2)).mpr ?_
  intro t
  rw [mem_sankeyToolList, mem_sankeyToolList]
  exact h t

theorem lookup_enumFrom_map (f : Nat → String) :
    ∀ (ts : List String), ts.Nodup → ∀ (n i : Nat) (t : String),
      ts.get? i = some t →
      List.lookup t ((List.enumFrom n ts).map fun p => (p.2, f p.1)) =
        some (f (n + i)) := by
  intro ts
  induction ts with
  | nil =>
    intro _ n i t h
    simp at h
  | cons s rest ih =>
    intro hno n i t h
    rcases List.nodup_cons.mp hno with ⟨hs, hrest⟩
    cases i with
    | zero =>
      simp only [List.get?_cons_zero, Option.some.injEq] at h
      subst h
      simp [List.enumFrom, List.lookup]
    | succ j =>
      simp only [List.get?_cons_succ] at h
      have htmem : t ∈ rest := List.get?_mem h
      have hne : (t == s) = false := by
        rw [beq_eq_false_iff_ne]
        intro hts
        exact hs (hts ▸ htmem)
      simp only [List.enumFrom, List.map_cons, List.lookup, hne]
      rw [ih hrest (n + 1) j t h]
      have harith : n + 1 + j = n + (j + 1) := by omega
      rw [harith]

/-- C8: without a caller-supplied color map, the tool colors are a pure
function of the set of distinct (valid-row) tool names — independent of
record order, call order and view mode — and each tool receives the
palette entry at its index in the sorted distinct-tool list, modulo the
palette length. -/
theorem C8_color_assignment (d1 d2 : List Record) (m1 m2 : String)
    (h : ∀ t : String, (∃ r ∈ d1, validRow r = true ∧ r.tool_name = some t) ↔
      (∃ r ∈ d2, validRow r = true ∧ r.tool_name = some t)) :
    (prepareSankeyData d1 none m1).toolColors =
      (prepareSankeyData d2 none m2).toolColors ∧
    (∀ (i : Nat) (t : String), (sankeyToolList d1).get? i = some t →
      List.lookup t (prepareSankeyData d1 none m1).toolColors =
        some (sankeyColors.getD (i % sankeyColors.length) "")) := by
  have hcolors : ∀ (d : List Record) (m : String),
      (prepareSankeyData d none m).toolColors = defaultToolColors d :=
    fun d m => rfl
  constructor
  · rw [hcolors, hcolors, defaultToolColors, defaultToolColors,
      sankeyToolList_eq_of_same_names d1 d2 h]
  · intro i t hget
    rw [hcolors, defaultToolColors, List.enum]
    have := lookup_enumFrom_map
      (fun j => sankeyColors.getD (j % sankeyColors.length) "")
      (sankeyToolList d1) (sankeyToolList_nodup d1) 0 i t hget
    simpa using this

/-- Witness for C8: a record sequence and its reversal, rendered in two
different view modes, produce the same color map. -/
theorem C8_color_assignment_witness :
    (prepareSankeyData twoUseCaseData none "all").toolColors =
      (prepareSankeyData twoUseCaseData.reverse none "errors").toolColors ∧
    List.lookup "A" (prepareSankeyData twoUseCaseData none "all").toolColors =
      some (sankeyColors.getD (0 % sankeyColors.length) "") :=
  ⟨(C8_color_assignment twoUseCaseData twoUseCaseData.reverse "all" "errors"
      (fun t => by
        constructor
        · rintro ⟨r, hr, hrest⟩
          exact ⟨r, List.mem_reverse.mpr hr, hrest⟩
        · rintro ⟨r, hr, hrest⟩
          exact ⟨r, List.mem_reverse.mp hr, hrest⟩)).1,
   (C8_color_assignment twoUseCaseData twoUseCaseData.reverse "all" "errors"
      (fun t => by
        constructor
        · rintro ⟨r, hr, hrest⟩
          exact ⟨r, List.mem_reverse.mpr hr, hrest⟩
        · rintro ⟨r, hr, hrest⟩
          exact ⟨r, List.mem_reverse.mp hr, hrest⟩)).2 0 "A"
     (by
       simp [sankeyToolList, twoUseCaseData, validRow, truthyStr, jsUniq,
         jsUniqAux, List.insertionSort, List.orderedInsert]
       decide)⟩

/-- Witness for C10 at a concrete input and at the empty input. -/
theorem C10_stepCount_max_witness :
    ((prepareSankeyData twoUseCaseData none "all").nodes.head (by decide)).step ≤
      (prepareSankeyData twoUseCaseData none "all").stepCount ∧
    ((prepareSankeyData [] none "all").nodes = [] ∧
      (prepareSankeyData [] none "all").links = [] ∧
      (prepareSankeyData [] none "all").stepCount = 1) :=
  ⟨(C10_stepCount_max twoUseCaseData none "all").2.1 _ (List.head_mem _),
   (C10_stepCount_max [] none "all").2.2.2⟩
